import Mathlib

/-!
Verification of the deepagents path-validation and backend-routing core.

The repository ships only the unit tests of `deepagents.backends`
(`test_utils.py`, `test_timeout_compat.py`, `test_local_shell.py`); the
implementation modules themselves (`backends/utils.py`,
`backends/protocol.py`, `backends/composite.py`) are absent from the
source tree.  Every definition below is therefore modelled from the
specification document (sections 3, 4.1, 4.2, 4.3 and 8), which gives the
algorithm of `validate_path`, the timeout-compatibility guard and the
composite routing rule step by step.  Paths are modelled as `List Char`
(the character data of a Python `str`), fallible functions return
`Except`.
-/

/-- Modelled from the spec: the single error kind raised by the path
validator, carrying one of three fixed message templates
(section 4.1, failure mode).  `badPrefix` carries the allowed prefixes
that the rejected path failed to match. -/
inductive PathErr where
  | traversal
  | windowsAbs
  | badPrefix (prefixes : List (List Char))
deriving DecidableEq

/-- Modelled from the spec: the human-readable reason carried by
`InvalidPathError`, one of three fixed templates. -/
def PathErr.msg : PathErr → String
  | .traversal => "Path traversal not allowed"
  | .windowsAbs => "Windows absolute paths are not supported"
  | .badPrefix ps =>
      "Path must start with one of " ++ String.intercalate ", " (ps.map String.mk)

/-- Modelled from the spec, section 4.1 step 1: normalize backslashes to
forward slashes.  On characters, the Python `str.replace` of a
one-character pattern is exactly a pointwise map. -/
def backslashNorm (cs : List Char) : List Char :=
  cs.map fun c => if c = '\\' then '/' else c

/-- Prepend a character to the first part of a split, used by
`splitOnSlash`. -/
def consHead (c : Char) : List (List Char) → List (List Char)
  | [] => [[c]]
  | p :: ps => (c :: p) :: ps

/-- Split a character list on `/`, with the semantics of the Python
`str.split` used to enumerate path components: the empty string yields
one empty component, `"/"` yields two. -/
def splitOnSlash : List Char → List (List Char)
  | [] => [[]]
  | c :: rest =>
      if c = '/' then [] :: splitOnSlash rest
      else consHead c (splitOnSlash rest)

/-- Join components with `/` separators, the inverse of `splitOnSlash`
on slash-free components. -/
def joinSlash : List (List Char) → List Char
  | [] => []
  | [p] => p
  | p :: ps => p ++ '/' :: joinSlash ps

/-- Does the path start with `/`. -/
def isAbsolute (cs : List Char) : Bool :=
  decide (cs.head? = some '/')

/-- Modelled from the spec, section 4.1 step 2: a Windows drive-letter
pattern is a single ASCII letter followed by a colon at the start of the
string. -/
def isWinDrive (cs : List Char) : Bool :=
  match cs with
  | a :: b :: _ => a.isAlpha && decide (b = ':')
  | _ => false

/-- Does the path start with a tilde. -/
def hasLeadingTilde (cs : List Char) : Bool :=
  decide (cs.head? = some '~')

/-- Modelled from the spec, section 4.1 steps 3 and 6: a traversal
attempt is a leading tilde or a literal `..` appearing as a whole path
component of the pre-normalized path. -/
def hasTraversal (cs : List Char) : Bool :=
  hasLeadingTilde cs || decide (['.', '.'] ∈ splitOnSlash cs)

/-- A component kept by lexical normalization: non-empty and not the
single-dot component (section 4.1 step 5). -/
def isNormSeg (p : List Char) : Bool :=
  decide (p ≠ [] ∧ p ≠ ['.'])

/-- The components of a path that survive lexical normalization. -/
def normComps (cs : List Char) : List (List Char) :=
  (splitOnSlash cs).filter isNormSeg

/-- Modelled from the spec, section 4.1 step 5: the segment-based
lexical normalization equivalent to POSIX `normpath` (collapse `//`,
resolve single-dot components).  Up-level `..` components never reach
this function inside `validate_path`, because step 6 rejects any input
holding a `..` component before normalization is used. -/
def normpath (cs : List Char) : List Char :=
  let comps := normComps cs
  if isAbsolute cs then '/' :: joinSlash comps
  else if comps.isEmpty then ['.']
  else joinSlash comps

/-- Normalize and then prepend `/` when the result is not absolute
(section 4.1 steps 4 and 5, ordered as the load-bearing edge cases of
the spec demand: `.` and the empty string normalize to `/.`). -/
def normalizeAbs (t : List Char) : List Char :=
  let n := normpath t
  if isAbsolute n then n else '/' :: n

/-- Drop one trailing slash, turning a directory-shaped prefix such as
`/workspace/` into its path form `/workspace`. -/
def stripTrailingSlash (p : List Char) : List Char :=
  if p.getLast? = some '/' then p.dropLast else p

/-- Modelled from the spec, section 4.1 step 7 and section 4.2: a
candidate prefix matches a normalized path when it is exactly equal to
it or is a true path-segment ancestor of it (matching at a directory
boundary). -/
def prefixMatches (p n : List Char) : Bool :=
  decide (n = p) || (stripTrailingSlash p ++ ['/']).isPrefixOf n

/-- Modelled from the spec, section 4.1: the validation pipeline applied
to an already backslash-normalized character list. -/
def validateNormalized (t : List Char) (allowed : Option (List (List Char))) :
    Except PathErr (List Char) :=
  if isWinDrive t then .error .windowsAbs
  else if hasTraversal t then .error .traversal
  else
    let n := normalizeAbs t
    match allowed with
    | none => .ok n
    | some ps =>
        if ps.any (fun p => prefixMatches p n) then .ok n
        else .error (.badPrefix ps)

/-- Modelled from the spec, section 4.1: `validate_path` on character
data.  Step 1 normalizes backslashes, then the rest of the pipeline
runs on the result. -/
def validatePathCore (raw : List Char) (allowed : Option (List (List Char))) :
    Except PathErr (List Char) :=
  validateNormalized (backslashNorm raw) allowed

/-- Modelled from the spec, section 4.1:
`validate_path(raw, allowed_prefixes) -> string | raises InvalidPathError`,
stated over Lean strings. -/
def validate_path (raw : String) (allowedPrefixes : Option (List String)) :
    Except PathErr String :=
  (validatePathCore raw.data (allowedPrefixes.map (List.map String.data))).map String.mk

/-- Modelled from the spec, section 4.3: the kind of a declared Python
parameter as reported by signature introspection. -/
inductive ParamKind where
  | positionalOnly
  | positionalOrKeyword
  | keywordOnly
  | varPositional
  | varKeyword
deriving DecidableEq

/-- Modelled from the spec, section 4.3: one declared parameter of an
`execute` method, a name together with its kind. -/
structure Param where
  name : String
  kind : ParamKind
deriving DecidableEq

/-- Modelled from the spec, section 4.3: what signature introspection of
the `execute` attribute of a backend class can observe — either a plain
callable with a list of declared parameters, or something that cannot be
inspected (a property, a non-function descriptor), on which
introspection raises. -/
inductive ExecuteAttr where
  | callable (params : List Param)
  | notInspectable
deriving DecidableEq

/-- Modelled from the spec, section 4.3: the outcome of
`execute_accepts_timeout` — the boolean answer together with whether a
warning was logged on the way (introspection failure). -/
structure AcceptsResult where
  accepts : Bool
  warned : Bool
deriving DecidableEq

/-- A declared parameter that counts as timeout support: literally named
`timeout` and keyword-only or positional-or-keyword.  A `**kwargs`
catch-all has kind `varKeyword` and never counts. -/
def acceptsTimeoutParam (p : Param) : Bool :=
  p.name == "timeout" && (p.kind == .keywordOnly || p.kind == .positionalOrKeyword)

/-- Modelled from the spec, section 4.3:
`execute_accepts_timeout(backend_class) -> bool`.  Introspects the
declared parameters of `execute`; on an un-inspectable attribute it logs
a warning and conservatively answers false instead of propagating the
failure.  The per-class memoization of the real function caches a pure
value and does not change it, so it is not modelled. -/
def execute_accepts_timeout : ExecuteAttr → AcceptsResult
  | .callable ps => ⟨ps.any acceptsTimeoutParam, false⟩
  | .notInspectable => ⟨false, true⟩

/-- The call shape finally made against the concrete `execute`:
either with no timeout argument, or with `timeout` passed as a keyword. -/
inductive ExecCall where
  | withoutTimeout (command : String)
  | withTimeout (command : String) (timeout : Int)
deriving DecidableEq

/-- The decision taken by the execute-with-timeout wrapper: the call
shape made, and whether the capability check was consulted at all. -/
structure GuardDecision where
  call : ExecCall
  checkedCapability : Bool
deriving DecidableEq

/-- Modelled from the spec, section 4.3: the execute-with-timeout
wrapper.  With no requested timeout the capability check is skipped and
`execute` is called with no timeout argument; with a requested timeout
the capability fact decides whether `timeout` is forwarded as a keyword
or silently dropped.  The wrapper is a total function: it never raises
of its own. -/
def executeWithTimeoutGuard (e : ExecuteAttr) (command : String)
    (timeout : Option Int) : GuardDecision :=
  match timeout with
  | none => ⟨.withoutTimeout command, false⟩
  | some t =>
      if (execute_accepts_timeout e).accepts then ⟨.withTimeout command t, true⟩
      else ⟨.withoutTimeout command, true⟩

/-- Modelled from the spec, sections 3 and 4.2: a concrete backend,
reduced to the two facts the router and the guard depend on — an
identity (so dispatch targets can be compared) and the introspectable
signature of its `execute` method.  The storage behaviour of backends is
an excluded collaborator. -/
structure Backend where
  ident : Nat
  executeSig : ExecuteAttr
deriving DecidableEq

/-- Modelled from the spec, section 4.3: the default asynchronous
adapter of the backend protocol wraps the same decision logic as the
synchronous wrapper around an awaited call. -/
def aexecuteAdapter (b : Backend) (command : String) (timeout : Option Int) :
    GuardDecision :=
  executeWithTimeoutGuard b.executeSig command timeout

/-- Modelled from the spec, section 4.2: `CompositeBackend` owns a
default backend and a route table mapping path prefixes to backends. -/
structure CompositeBackend where
  default : Backend
  routes : List (List Char × Backend)
deriving DecidableEq

/-- Pick the route with the longest prefix from a list of candidate
routes, preferring the earlier entry on equal lengths. -/
def pickLongest : List (List Char × Backend) → Option (List Char × Backend)
  | [] => none
  | r :: rs =>
      match pickLongest rs with
      | none => some r
      | some b => if b.1.length > r.1.length then some b else some r

/-- Modelled from the spec, section 4.2: the backend serving a validated
path — the backend registered under the longest matching prefix, the
default backend when no route matches. -/
def CompositeBackend.routeTarget (cb : CompositeBackend) (n : List Char) : Backend :=
  match pickLongest (cb.routes.filter fun r => prefixMatches r.1 n) with
  | some r => r.2
  | none => cb.default

/-- Modelled from the spec, section 4.2: every filesystem operation of
the composite (`read`, `write`, `list`, `glob`) first validates its path
and then dispatches identically; this models the dispatch they share,
returning which backend serves the call. -/
def CompositeBackend.backendFor (cb : CompositeBackend) (path : String) :
    Except PathErr Backend :=
  (validatePathCore path.data none).map cb.routeTarget

/-- Modelled from the spec, section 4.2: `execute` always delegates to
the default backend (execution has no path to route on) through the
timeout-compatibility guard.  The model records the delegated-to backend
and the call shape made against it. -/
def CompositeBackend.execute (cb : CompositeBackend) (command : String)
    (timeout : Option Int) : Backend × GuardDecision :=
  (cb.default, executeWithTimeoutGuard cb.default.executeSig command timeout)

/-- Modelled from the spec, section 4.2: the asynchronous entry point of
the composite wraps the same decision logic. -/
def CompositeBackend.aexecute (cb : CompositeBackend) (command : String)
    (timeout : Option Int) : Backend × GuardDecision :=
  cb.execute command timeout

/-- The declared parameters of the modern test backend:
`execute(self, command, *, timeout=None)`. -/
def modernParams : List Param :=
  [⟨"self", .positionalOrKeyword⟩, ⟨"command", .positionalOrKeyword⟩,
   ⟨"timeout", .keywordOnly⟩]

/-- The declared parameters of the legacy test backend:
`execute(self, command)`. -/
def legacyParams : List Param :=
  [⟨"self", .positionalOrKeyword⟩, ⟨"command", .positionalOrKeyword⟩]

/-- The declared parameters of the kwargs test backend:
`execute(self, command, **kwargs)`. -/
def kwargsParams : List Param :=
  [⟨"self", .positionalOrKeyword⟩, ⟨"command", .positionalOrKeyword⟩,
   ⟨"kwargs", .varKeyword⟩]

/-- A backend with the modern `execute` signature. -/
def modernBackend : Backend := ⟨0, .callable modernParams⟩

/-- A backend with the legacy `execute` signature. -/
def legacyBackend : Backend := ⟨1, .callable legacyParams⟩

/-- A route-table backend standing for the store backend of the
routing example in section 8 of the spec. -/
def memoriesBackend : Backend := ⟨2, .callable modernParams⟩

/-- The composite of the routing example in section 8 of the spec:
`routes = ("/memories/" -> memoriesBackend)`, default `legacyBackend`. -/
def exampleComposite : CompositeBackend :=
  ⟨legacyBackend, [(("/memories/" : String).data, memoriesBackend)]⟩

/-- C8: the three degenerate inputs are accepted with fixed results:
`validate_path "."` returns `/.`, `validate_path ""` returns `/.`, and
`validate_path "/"` returns `/`. -/
theorem validate_path_degenerate_inputs :
    validate_path "." none = .ok "/." ∧
    validate_path "" none = .ok "/." ∧
    validate_path "/" none = .ok "/" :=
  ⟨rfl, rfl, rfl⟩

/-- The split of a character list is never empty. -/
theorem splitOnSlash_exists_cons (cs : List Char) :
    ∃ q qs, splitOnSlash cs = q :: qs := by
  induction cs with
  | nil => exact ⟨[], [], rfl⟩
  | cons c rest ih =>
      obtain ⟨q, qs, h⟩ := ih
      by_cases hc : c = '/'
      · exact ⟨[], splitOnSlash rest, by simp [splitOnSlash, hc]⟩
      · exact ⟨c :: q, qs, by simp [splitOnSlash, hc, h, consHead]⟩

/-- Unfolding lemma for `splitOnSlash` on a non-slash head. -/
theorem splitOnSlash_cons_of_ne {c : Char} (rest : List Char) (hc : c ≠ '/')
    {q : List Char} {qs : List (List Char)} (h : splitOnSlash rest = q :: qs) :
    splitOnSlash (c :: rest) = (c :: q) :: qs := by
  simp [splitOnSlash, hc, h, consHead]

/-- Unfolding lemma for `splitOnSlash` on a slash head. -/
theorem splitOnSlash_slash (rest : List Char) :
    splitOnSlash ('/' :: rest) = [] :: splitOnSlash rest := by
  simp [splitOnSlash]

/-- A slash-free character list splits into itself alone. -/
theorem splitOnSlash_slashFree {cs : List Char} (h : '/' ∉ cs) :
    splitOnSlash cs = [cs] := by
  induction cs with
  | nil => rfl
  | cons c rest ih =>
      have hc : c ≠ '/' := by rintro rfl; exact h (List.mem_cons_self _ _)
      have hrest : '/' ∉ rest := fun hm => h (List.mem_cons_of_mem _ hm)
      exact splitOnSlash_cons_of_ne rest hc (ih hrest)

/-- Splitting distributes over appending a slash-free part and a slash. -/
theorem splitOnSlash_append_slash {p : List Char} (cs : List Char) (h : '/' ∉ p) :
    splitOnSlash (p ++ '/' :: cs) = p :: splitOnSlash cs := by
  induction p with
  | nil => simpa using splitOnSlash_slash cs
  | cons c p' ih =>
      have hc : c ≠ '/' := by rintro rfl; exact h (List.mem_cons_self _ _)
      have hp' : '/' ∉ p' := fun hm => h (List.mem_cons_of_mem _ hm)
      simpa using splitOnSlash_cons_of_ne _ hc (ih hp')

/-- Splitting inverts joining on non-empty lists of slash-free parts. -/
theorem splitOnSlash_joinSlash {ps : List (List Char)} (hne : ps ≠ [])
    (h : ∀ p ∈ ps, '/' ∉ p) : splitOnSlash (joinSlash ps) = ps := by
  induction ps with
  | nil => exact absurd rfl hne
  | cons p ps' ih =>
      cases ps' with
      | nil => exact splitOnSlash_slashFree (h p (List.mem_cons_self _ _))
      | cons q qs =>
          have h1 : '/' ∉ p := h p (List.mem_cons_self _ _)
          have h2 : ∀ r ∈ q :: qs, '/' ∉ r := fun r hr => h r (List.mem_cons_of_mem _ hr)
          have hj : joinSlash (p :: q :: qs) = p ++ '/' :: joinSlash (q :: qs) := rfl
          rw [hj, splitOnSlash_append_slash _ h1, ih (by simp) h2]

/-- Characters of a split part are characters of the split input. -/
theorem mem_of_mem_splitOnSlash {cs p : List Char} {c : Char}
    (hp : p ∈ splitOnSlash cs) (hc : c ∈ p) : c ∈ cs := by
  induction cs generalizing p with
  | nil =>
      simp only [splitOnSlash, List.mem_singleton] at hp
      subst hp; simp at hc
  | cons d rest ih =>
      by_cases hd : d = '/'
      · subst hd
        rw [splitOnSlash_slash] at hp
        rcases List.mem_cons.mp hp with h | h
        · subst h; simp at hc
        · exact List.mem_cons_of_mem _ (ih h hc)
      · obtain ⟨q, qs, hs⟩ := splitOnSlash_exists_cons rest
        rw [splitOnSlash_cons_of_ne rest hd hs] at hp
        rcases List.mem_cons.mp hp with h | h
        · subst h
          rcases List.mem_cons.mp hc with h' | h'
          · exact h' ▸ List.mem_cons_self _ _
          · exact List.mem_cons_of_mem _ (ih (hs ▸ List.mem_cons_self q qs) h')
        · exact List.mem_cons_of_mem _ (ih (hs ▸ List.mem_cons_of_mem q h) hc)

/-- Parts produced by splitting on slashes are slash-free. -/
theorem slash_not_mem_of_mem_splitOnSlash {cs p : List Char}
    (hp : p ∈ splitOnSlash cs) : '/' ∉ p := by
  induction cs generalizing p with
  | nil =>
      simp only [splitOnSlash, List.mem_singleton] at hp
      subst hp; simp
  | cons d rest ih =>
      by_cases hd : d = '/'
      · subst hd
        rw [splitOnSlash_slash] at hp
        rcases List.mem_cons.mp hp with h | h
        · subst h; simp
        · exact ih h
      · obtain ⟨q, qs, hs⟩ := splitOnSlash_exists_cons rest
        rw [splitOnSlash_cons_of_ne rest hd hs] at hp
        rcases List.mem_cons.mp hp with h | h
        · subst h
          intro hmem
          rcases List.mem_cons.mp hmem with h' | h'
          · exact hd h'.symm
          · exact ih (hs ▸ List.mem_cons_self q qs) h'
        · exact ih (hs ▸ List.mem_cons_of_mem q h)

/-- Characters of a join are slashes or characters of some part. -/
theorem mem_joinSlash {ps : List (List Char)} {c : Char} (h : c ∈ joinSlash ps) :
    c = '/' ∨ ∃ p ∈ ps, c ∈ p := by
  induction ps with
  | nil => simp [joinSlash] at h
  | cons p ps' ih =>
      cases ps' with
      | nil => exact Or.inr ⟨p, List.mem_cons_self _ _, h⟩
      | cons q qs =>
          have hj : joinSlash (p :: q :: qs) = p ++ '/' :: joinSlash (q :: qs) := rfl
          rw [hj] at h
          rcases List.mem_append.mp h with h | h
          · exact Or.inr ⟨p, List.mem_cons_self _ _, h⟩
          · rcases List.mem_cons.mp h with h | h
            · exact Or.inl h
            · rcases ih h with h | ⟨r, hr, hcr⟩
              · exact Or.inl h
              · exact Or.inr ⟨r, List.mem_cons_of_mem _ hr, hcr⟩

/-- Backslash normalization leaves no backslash behind. -/
theorem backslash_not_mem_backslashNorm (cs : List Char) :
    '\\' ∉ backslashNorm cs := by
  intro h
  rw [backslashNorm, List.mem_map] at h
  obtain ⟨c, _, hc⟩ := h
  by_cases h' : c = '\\'
  · rw [if_pos h'] at hc; exact absurd hc (by decide)
  · rw [if_neg h'] at hc; exact h' hc

/-- Backslash normalization fixes backslash-free inputs. -/
theorem backslashNorm_eq_self {cs : List Char} (h : '\\' ∉ cs) :
    backslashNorm cs = cs := by
  rw [backslashNorm]
  have hcong : ∀ c ∈ cs, (if c = '\\' then '/' else c) = id c := by
    intro c hc
    rw [if_neg]; · rfl
    rintro rfl; exact h hc
  rw [List.map_congr_left hcong, List.map_id]

/-- Backslash normalization is idempotent. -/
theorem backslashNorm_idem (cs : List Char) :
    backslashNorm (backslashNorm cs) = backslashNorm cs :=
  backslashNorm_eq_self (backslash_not_mem_backslashNorm cs)

/-- Mapping an `Except` hits `ok` exactly when the source was `ok`. -/
theorem exceptMap_ok {ε α β : Type} {x : Except ε α} {f : α → β} {b : β} :
    x.map f = .ok b ↔ ∃ a, x = .ok a ∧ f a = b := by
  cases x with
  | error e => simp [Except.map]
  | ok a => simp [Except.map]

/-- Components surviving normalization are non-empty and not a dot. -/
theorem normComps_isNormSeg {t p : List Char} (hp : p ∈ normComps t) :
    p ≠ [] ∧ p ≠ ['.'] := by
  have := List.of_mem_filter hp
  simpa [isNormSeg] using this

/-- Components surviving normalization come from the split of the input. -/
theorem normComps_mem_split {t p : List Char} (hp : p ∈ normComps t) :
    p ∈ splitOnSlash t :=
  List.mem_of_mem_filter hp

/-- A join headed by a non-empty slash-free component is not absolute. -/
theorem isAbsolute_joinSlash_cons {c0 : List Char} (rest : List (List Char))
    (h0 : c0 ≠ []) (hs : '/' ∉ c0) :
    isAbsolute (joinSlash (c0 :: rest)) = false := by
  cases c0 with
  | nil => exact absurd rfl h0
  | cons d ds =>
      have hd : d ≠ '/' := by rintro rfl; exact hs (List.mem_cons_self _ _)
      cases rest with
      | nil => simp [joinSlash, isAbsolute, hd]
      | cons q qs =>
          have hj : joinSlash ((d :: ds) :: q :: qs) =
              (d :: ds) ++ '/' :: joinSlash (q :: qs) := rfl
          rw [hj]
          simp [isAbsolute, hd]

/-- Unfolding `hasTraversal` being false into its two conjuncts. -/
theorem hasTraversal_eq_false_iff {cs : List Char} :
    hasTraversal cs = false ↔
      hasLeadingTilde cs = false ∧ ['.', '.'] ∉ splitOnSlash cs := by
  simp [hasTraversal, hasLeadingTilde]

/-- Shape of the normalized absolute path: either a slash followed by
the joined surviving components, or the degenerate `/.` produced by a
relative input with no surviving components. -/
theorem normalizeAbs_eq (t : List Char) :
    normalizeAbs t = '/' :: joinSlash (normComps t) ∨
      (normComps t = [] ∧ isAbsolute t = false ∧ normalizeAbs t = ['/', '.']) := by
  unfold normalizeAbs normpath
  by_cases ha : isAbsolute t = true
  · left
    simp only [ha, if_true, if_pos]
    simp [isAbsolute]
  · rw [Bool.not_eq_true] at ha
    cases hcomp : normComps t with
    | nil =>
        right
        refine ⟨rfl, ha, ?_⟩
        have ha' : ¬ (t.head? = some '/') := by simpa [isAbsolute] using ha
        simp [ha', hcomp, isAbsolute]
    | cons c0 rest =>
        left
        have hmem : c0 ∈ normComps t := hcomp ▸ List.mem_cons_self c0 rest
        have h0 := (normComps_isNormSeg hmem).1
        have hsf := slash_not_mem_of_mem_splitOnSlash (normComps_mem_split hmem)
        have hnabs : isAbsolute (joinSlash (c0 :: rest)) = false :=
          isAbsolute_joinSlash_cons rest h0 hsf
        simp [ha, hcomp, hnabs]

/-- Success of the pipeline without an allowlist, unfolded. -/
theorem validateNormalized_none_ok {t n : List Char} :
    validateNormalized t none = .ok n ↔
      isWinDrive t = false ∧ hasTraversal t = false ∧ n = normalizeAbs t := by
  unfold validateNormalized
  by_cases h1 : isWinDrive t = true
  · simp [h1]
  · rw [Bool.not_eq_true] at h1
    by_cases h2 : hasTraversal t = true
    · simp [h1, h2]
    · rw [Bool.not_eq_true] at h2
      simp [h1, h2, eq_comm]

/-- Success of the pipeline with an allowlist, unfolded. -/
theorem validateNormalized_some_ok {t n : List Char} {ps : List (List Char)} :
    validateNormalized t (some ps) = .ok n ↔
      isWinDrive t = false ∧ hasTraversal t = false ∧
      ps.any (fun p => prefixMatches p (normalizeAbs t)) = true ∧
      n = normalizeAbs t := by
  unfold validateNormalized
  by_cases h1 : isWinDrive t = true
  · simp [h1]
  · rw [Bool.not_eq_true] at h1
    by_cases h2 : hasTraversal t = true
    · simp [h1, h2]
    · rw [Bool.not_eq_true] at h2
      by_cases h3 : ps.any (fun p => prefixMatches p (normalizeAbs t)) = true
      · simp [h1, h2, h3, eq_comm]
      · rw [Bool.not_eq_true] at h3
        simp [h1, h2, h3]

/-- With the guards passed, the allowlist branch either succeeds with
the normalized path or fails with the prefix error. -/
theorem validateNormalized_some_cases {t : List Char} {ps : List (List Char)}
    (h1 : isWinDrive t = false) (h2 : hasTraversal t = false) :
    validateNormalized t (some ps) = .ok (normalizeAbs t) ∨
    validateNormalized t (some ps) = .error (.badPrefix ps) := by
  unfold validateNormalized
  by_cases h3 : ps.any (fun p => prefixMatches p (normalizeAbs t)) = true
  · left; simp [h1, h2, h3]
  · right
    rw [Bool.not_eq_true] at h3
    simp [h1, h2, h3]

/-- Re-validating a slash followed by joined surviving components of a
backslash-free, traversal-free input succeeds and returns it unchanged. -/
theorem validatePathCore_again {t : List Char} (hB : '\\' ∉ t)
    (hT : hasTraversal t = false) :
    validatePathCore ('/' :: joinSlash (normComps t)) none =
      .ok ('/' :: joinSlash (normComps t)) := by
  have hdots : ['.', '.'] ∉ splitOnSlash t := (hasTraversal_eq_false_iff.mp hT).2
  cases hcomp : normComps t with
  | nil => rfl
  | cons c0 rest =>
      set comps : List (List Char) := c0 :: rest with hcompsdef
      have hall : ∀ p ∈ comps, p ∈ splitOnSlash t := by
        intro p hp
        exact normComps_mem_split (hcomp ▸ hp)
      have hseg : ∀ p ∈ comps, p ≠ [] ∧ p ≠ ['.'] := by
        intro p hp
        exact normComps_isNormSeg (hcomp ▸ hp)
      have hsf : ∀ p ∈ comps, '/' ∉ p := fun p hp =>
        slash_not_mem_of_mem_splitOnSlash (hall p hp)
      have hnodots : ∀ p ∈ comps, p ≠ ['.', '.'] := by
        intro p hp hcontr
        exact hdots (hcontr ▸ hall p hp)
      have hnoback : ∀ p ∈ comps, '\\' ∉ p := by
        intro p hp hcontr
        exact hB (mem_of_mem_splitOnSlash (hall p hp) hcontr)
      set n : List Char := '/' :: joinSlash comps with hndef
      have hsplit : splitOnSlash n = [] :: comps := by
        rw [hndef, splitOnSlash_slash, splitOnSlash_joinSlash (by simp [hcompsdef]) hsf]
      have hnB : '\\' ∉ n := by
        intro hc
        rcases List.mem_cons.mp hc with h | h
        · exact absurd h.symm (by decide)
        · rcases mem_joinSlash h with h' | ⟨p, hp, hcp⟩
          · exact absurd h'.symm (by decide)
          · exact hnoback p hp hcp
      have hback : backslashNorm n = n := backslashNorm_eq_self hnB
      have hwin : isWinDrive n = false := by
        rw [hndef]
        cases hj : joinSlash comps with
        | nil => rfl
        | cons b bs => simp [isWinDrive]
      have htilde : hasLeadingTilde n = false := by
        rw [hndef]; rfl
      have htrav : hasTraversal n = false := by
        rw [hasTraversal_eq_false_iff]
        refine ⟨htilde, ?_⟩
        rw [hsplit]
        intro hc
        rcases List.mem_cons.mp hc with h | h
        · exact absurd h.symm (by decide)
        · exact hnodots _ h rfl
      have hcompsn : normComps n = comps := by
        rw [normComps, hsplit]
        have h0 : isNormSeg ([] : List Char) = false := rfl
        rw [List.filter_cons, h0]
        simp only [Bool.false_eq_true, if_false]
        rw [List.filter_eq_self]
        intro p hp
        have := hseg p hp
        simp [isNormSeg, this.1, this.2]
      have habs : isAbsolute n = true := by rw [hndef]; rfl
      have hnorm : normalizeAbs n = n := by
        unfold normalizeAbs normpath
        rw [hcompsn, habs]
        simp [habs, hndef]
      rw [validatePathCore, hback, validateNormalized_none_ok]
      exact ⟨hwin, htrav, hnorm.symm⟩

/-- Definitional unfolding of `validate_path` without an allowlist. -/
theorem validate_path_none_eq (s : String) :
    validate_path s none = (validatePathCore s.data none).map String.mk := rfl

/-- Definitional unfolding of `validate_path` with an allowlist. -/
theorem validate_path_some_eq (s : String) (ps : List String) :
    validate_path s (some ps) =
      (validatePathCore s.data (some (ps.map String.data))).map String.mk := rfl

/-- Idempotence at the core level, away from the degenerate `/.`
result: a successful validation result that is not `/.` re-validates to
itself. -/
theorem validatePathCore_idem {raw n : List Char}
    (h : validatePathCore raw none = .ok n) (hne : n ≠ ['/', '.']) :
    validatePathCore n none = .ok n := by
  rw [validatePathCore, validateNormalized_none_ok] at h
  obtain ⟨h1, h2, h3⟩ := h
  rcases normalizeAbs_eq (backslashNorm raw) with he | ⟨hc, ha, he⟩
  · rw [h3, he]
    exact validatePathCore_again (backslash_not_mem_backslashNorm raw) h2
  · rw [h3, he] at hne
    exact absurd rfl hne

/-- C1 counterexample: re-validating the validated form of `.` is not a
no-op.  `validate_path "."` returns `/.`, but validating `/.` returns
`/`, because lexical normalization resolves the single-dot component of
an already absolute path. -/
theorem validate_path_not_idempotent_at_dot :
    validate_path "." none = .ok "/." ∧ validate_path "/." none ≠ .ok "/." := by
  constructor
  · rfl
  · intro h
    have h' : (Except.ok "/" : Except PathErr String) = .ok "/." := h
    exact absurd (Except.ok.inj h') (by decide)

/-- C1 (amended): for every string on which `validate_path` succeeds
and returns a path other than the degenerate `/.`, re-validating the
returned path succeeds and returns it unchanged. -/
theorem validate_path_idem_off_slash_dot (s p : String)
    (h : validate_path s none = .ok p) (hp : p ≠ "/.") :
    validate_path p none = .ok p := by
  rw [validate_path_none_eq] at h
  obtain ⟨m, hm, hmk⟩ := exceptMap_ok.mp h
  have hdata : p.data = m := by rw [← hmk]
  have hne : p.data ≠ ['/', '.'] := fun hcontr => hp (congrArg String.mk hcontr)
  have hcore : validatePathCore p.data none = .ok p.data := by
    rw [hdata]
    exact validatePathCore_idem hm (hdata ▸ hne)
  rw [validate_path_none_eq, hcore]
  rfl

/-- C1 witness: the amended idempotence at a concrete input. -/
theorem validate_path_idem_off_slash_dot_witness :
    validate_path "foo/bar" none = .ok "/foo/bar" ∧ ("/foo/bar" : String) ≠ "/." ∧
    validate_path "/foo/bar" none = .ok "/foo/bar" :=
  ⟨rfl, by decide, validate_path_idem_off_slash_dot "foo/bar" "/foo/bar" rfl (by decide)⟩

/-- C9: on every input containing a backslash on which `validate_path`
succeeds, the output contains no backslash, and validating the input
with every backslash replaced by a forward slash gives the same
result. -/
theorem validate_path_no_backslashes (s p : String)
    (_hb : '\\' ∈ s.data) (h : validate_path s none = .ok p) :
    '\\' ∉ p.data ∧
      validate_path (String.mk (backslashNorm s.data)) none = .ok p := by
  rw [validate_path_none_eq] at h
  obtain ⟨m, hm, hmk⟩ := exceptMap_ok.mp h
  have hdata : p.data = m := by rw [← hmk]
  rw [validatePathCore, validateNormalized_none_ok] at hm
  obtain ⟨h1, h2, h3⟩ := hm
  constructor
  · rw [hdata, h3]
    rcases normalizeAbs_eq (backslashNorm s.data) with he | ⟨_, _, he⟩
    · rw [he]
      intro hc
      rcases List.mem_cons.mp hc with hx | hx
      · exact absurd hx.symm (by decide)
      · rcases mem_joinSlash hx with hx' | ⟨q, hq, hcq⟩
        · exact absurd hx'.symm (by decide)
        · exact backslash_not_mem_backslashNorm s.data
            (mem_of_mem_splitOnSlash (normComps_mem_split hq) hcq)
    · rw [he]; decide
  · have hcore : validatePathCore (backslashNorm s.data) none = .ok m := by
      rw [validatePathCore, backslashNorm_idem]
      exact validateNormalized_none_ok.mpr ⟨h1, h2, h3⟩
    rw [validate_path_none_eq]
    have hshow : (String.mk (backslashNorm s.data)).data = backslashNorm s.data := rfl
    rw [hshow, hcore, ← hmk]
    rfl

/-- C9 witness: the example of the spec, `foo\bar\baz` validates to
`/foo/bar/baz` with no backslash in the output. -/
theorem validate_path_no_backslashes_witness :
    '\\' ∈ ("foo\\bar\\baz" : String).data ∧
    validate_path "foo\\bar\\baz" none = .ok "/foo/bar/baz" ∧
    ('\\' ∉ ("/foo/bar/baz" : String).data ∧
      validate_path (String.mk (backslashNorm ("foo\\bar\\baz" : String).data)) none =
        .ok "/foo/bar/baz") :=
  ⟨by decide, rfl,
   validate_path_no_backslashes "foo\\bar\\baz" "/foo/bar/baz" (by decide) rfl⟩

/-- C7: every input whose backslash-normalized form begins with an
ASCII letter followed by a colon is rejected as a Windows absolute
path, with the fixed message. -/
theorem validate_path_windows_drive_rejected (s : String)
    (h : ∃ a rest, backslashNorm s.data = a :: ':' :: rest ∧ a.isAlpha = true) :
    validate_path s none = .error .windowsAbs ∧
      PathErr.windowsAbs.msg = "Windows absolute paths are not supported" := by
  obtain ⟨a, rest, hshape, halpha⟩ := h
  have hwin : isWinDrive (backslashNorm s.data) = true := by
    rw [hshape]
    simp [isWinDrive, halpha]
  constructor
  · rw [validate_path_none_eq, validatePathCore]
    unfold validateNormalized
    rw [hwin]
    rfl
  · rfl

/-- C7 witness: both the backslash form and the forward-slash form of a
drive-letter path are rejected. -/
theorem validate_path_windows_drive_rejected_witness :
    validate_path "C:\\Users\\file.txt" none = .error .windowsAbs ∧
    validate_path "D:/data/file.txt" none = .error .windowsAbs :=
  ⟨(validate_path_windows_drive_rejected "C:\\Users\\file.txt"
      ⟨'C', ("/Users/file.txt" : String).data, rfl, rfl⟩).1,
   (validate_path_windows_drive_rejected "D:/data/file.txt"
      ⟨'D', ("/data/file.txt" : String).data, rfl, rfl⟩).1⟩

/-- Unfolding `hasTraversal` being true into its two disjuncts. -/
theorem hasTraversal_eq_true_iff {cs : List Char} :
    hasTraversal cs = true ↔
      cs.head? = some '~' ∨ ['.', '.'] ∈ splitOnSlash cs := by
  simp [hasTraversal, hasLeadingTilde]

/-- C2 counterexample: an input that holds a `..` component and also
bears a drive letter is rejected, but with the Windows message rather
than the traversal message, because the drive-letter check runs first
(spec section 4.1 orders step 2 before steps 3 and 6). -/
theorem validate_path_traversal_not_exact :
    ['.', '.'] ∈ splitOnSlash (backslashNorm ("C:/../evil" : String).data) ∧
    validate_path "C:/../evil" none ≠ .error .traversal := by
  constructor
  · decide
  · intro h
    have h' : (Except.error PathErr.windowsAbs : Except PathErr String) =
        .error .traversal := h
    exact absurd (Except.error.inj h') (by decide)

/-- C2 (amended): `validate_path` raises the traversal error exactly
when the input is not first rejected as a Windows absolute path and its
backslash-normalized form bears a leading tilde or holds `..` as a
whole path component; `..` as a mere substring of a component is
accepted. -/
theorem validate_path_traversal_iff (s : String) :
    (validate_path s none = .error .traversal ↔
      isWinDrive (backslashNorm s.data) = false ∧
      ((backslashNorm s.data).head? = some '~' ∨
        ['.', '.'] ∈ splitOnSlash (backslashNorm s.data))) ∧
    PathErr.traversal.msg = "Path traversal not allowed" ∧
    validate_path "foo..bar.txt" none = .ok "/foo..bar.txt" ∧
    validate_path "foo/../etc/passwd" none = .error .traversal ∧
    validate_path "/workspace/../../../etc/shadow" none = .error .traversal := by
  refine ⟨⟨?_, ?_⟩, rfl, rfl, rfl, rfl⟩
  · intro h
    rw [validate_path_none_eq, validatePathCore] at h
    unfold validateNormalized at h
    by_cases h1 : isWinDrive (backslashNorm s.data) = true
    · rw [h1] at h
      simp [Except.map] at h
    · rw [Bool.not_eq_true] at h1
      refine ⟨h1, ?_⟩
      by_cases h2 : hasTraversal (backslashNorm s.data) = true
      · exact hasTraversal_eq_true_iff.mp h2
      · rw [Bool.not_eq_true] at h2
        rw [h1, h2] at h
        simp [Except.map] at h
  · rintro ⟨h1, h2⟩
    have htrav : hasTraversal (backslashNorm s.data) = true :=
      hasTraversal_eq_true_iff.mpr h2
    rw [validate_path_none_eq, validatePathCore]
    unfold validateNormalized
    rw [h1, htrav]
    rfl

/-- C2 witness: the biconditional applied at a traversal input. -/
theorem validate_path_traversal_iff_witness :
    validate_path "foo/../etc" none = .error .traversal :=
  (validate_path_traversal_iff "foo/../etc").1.mpr ⟨rfl, Or.inr (by decide)⟩

/-- C6: when an allowlist is supplied, a path that validates without it
to `n` is accepted exactly when some allowed prefix equals `n` or is a
true path-segment ancestor of it; otherwise the prefix error is
raised. -/
theorem validate_path_allowed_prefixes_spec (s : String) (ps : List String)
    (n : String) (h : validate_path s none = .ok n) :
    (validate_path s (some ps) = .ok n ↔
      ∃ p ∈ ps, prefixMatches p.data n.data = true) ∧
    (validate_path s (some ps) = .ok n ∨
      validate_path s (some ps) = .error (.badPrefix (ps.map String.data))) := by
  rw [validate_path_none_eq] at h
  obtain ⟨m, hm, hmk⟩ := exceptMap_ok.mp h
  have hdata : n.data = m := by rw [← hmk]
  rw [validatePathCore, validateNormalized_none_ok] at hm
  obtain ⟨h1, h2, h3⟩ := hm
  have hiff : validate_path s (some ps) = .ok n ↔
      ∃ p ∈ ps, prefixMatches p.data n.data = true := by
    constructor
    · intro hok
      rw [validate_path_some_eq] at hok
      obtain ⟨m', hm', hmk'⟩ := exceptMap_ok.mp hok
      rw [validatePathCore, validateNormalized_some_ok] at hm'
      obtain ⟨_, _, hany, _⟩ := hm'
      obtain ⟨q, hq, hpq⟩ := List.any_eq_true.mp hany
      obtain ⟨p, hp, hpdata⟩ := List.mem_map.mp hq
      refine ⟨p, hp, ?_⟩
      rw [hpdata, hdata, h3]
      exact hpq
    · rintro ⟨p, hp, hmatch⟩
      have hany : (ps.map String.data).any
          (fun q => prefixMatches q (normalizeAbs (backslashNorm s.data))) = true := by
        refine List.any_eq_true.mpr ⟨p.data, List.mem_map_of_mem _ hp, ?_⟩
        rw [← h3, ← hdata]
        exact hmatch
      rw [validate_path_some_eq, validatePathCore]
      rw [validateNormalized_some_ok.mpr ⟨h1, h2, hany, rfl⟩]
      rw [← hmk, h3]
      rfl
  refine ⟨hiff, ?_⟩
  rcases @validateNormalized_some_cases _ (ps.map String.data) h1 h2 with hc | hc
  · left
    rw [validate_path_some_eq, validatePathCore, hc, ← hmk, h3]
    rfl
  · right
    rw [validate_path_some_eq, validatePathCore, hc]
    rfl

/-- C6 witness: the boundary examples of the claim — under the
allowlist `/workspace/`, the path `/workspace/file.txt` is returned
unchanged while `/workspace-evil/file` raises the prefix error, whose
message starts with the fixed template. -/
theorem validate_path_allowed_prefixes_spec_witness :
    validate_path "/workspace/file.txt" none = .ok "/workspace/file.txt" ∧
    validate_path "/workspace/file.txt" (some ["/workspace/"]) =
      .ok "/workspace/file.txt" ∧
    validate_path "/workspace-evil/file" (some ["/workspace/"]) =
      .error (.badPrefix [("/workspace/" : String).data]) ∧
    List.isPrefixOf ("Path must start with one of" : String).data
      ((PathErr.badPrefix [("/workspace/" : String).data]).msg).data = true := by
  refine ⟨rfl, ?_, rfl, by decide⟩
  exact (validate_path_allowed_prefixes_spec "/workspace/file.txt" ["/workspace/"]
      "/workspace/file.txt" rfl).1.mpr
    ⟨"/workspace/", List.mem_singleton.mpr rfl, by decide⟩

/-- C4: `execute_accepts_timeout` answers true exactly when a declared
parameter is literally named `timeout` and is keyword-only or
positional-or-keyword; a `**kwargs` catch-all does not count; and an
un-inspectable `execute` attribute yields false with a logged warning
instead of a propagated failure. -/
theorem execute_accepts_timeout_spec :
    (∀ ps : List Param,
      ((execute_accepts_timeout (.callable ps)).accepts = true ↔
        ∃ p ∈ ps, p.name = "timeout" ∧
          (p.kind = ParamKind.keywordOnly ∨ p.kind = ParamKind.positionalOrKeyword))) ∧
    execute_accepts_timeout .notInspectable = ⟨false, true⟩ ∧
    (∀ ps : List Param, (execute_accepts_timeout (.callable ps)).warned = false) ∧
    (execute_accepts_timeout (.callable modernParams)).accepts = true ∧
    (execute_accepts_timeout (.callable legacyParams)).accepts = false ∧
    (execute_accepts_timeout (.callable kwargsParams)).accepts = false := by
  refine ⟨?_, rfl, fun ps => rfl, rfl, rfl, rfl⟩
  intro ps
  show ps.any acceptsTimeoutParam = true ↔ _
  rw [List.any_eq_true]
  constructor
  · rintro ⟨p, hp, hacc⟩
    rw [acceptsTimeoutParam, Bool.and_eq_true, Bool.or_eq_true] at hacc
    obtain ⟨hname, hkind⟩ := hacc
    refine ⟨p, hp, beq_iff_eq.mp hname, ?_⟩
    rcases hkind with hk | hk
    · exact Or.inl (beq_iff_eq.mp hk)
    · exact Or.inr (beq_iff_eq.mp hk)
  · rintro ⟨p, hp, hname, hkind⟩
    refine ⟨p, hp, ?_⟩
    rw [acceptsTimeoutParam, Bool.and_eq_true, Bool.or_eq_true]
    refine ⟨beq_iff_eq.mpr hname, ?_⟩
    rcases hkind with hk | hk
    · exact Or.inl (beq_iff_eq.mpr hk)
    · exact Or.inr (beq_iff_eq.mpr hk)

/-- C4 witness: the biconditional applied at the modern signature. -/
theorem execute_accepts_timeout_spec_witness :
    ∃ p ∈ modernParams, p.name = "timeout" ∧
      (p.kind = ParamKind.keywordOnly ∨ p.kind = ParamKind.positionalOrKeyword) :=
  (execute_accepts_timeout_spec.1 modernParams).mp rfl

/-- C3: the execute-with-timeout wrapper makes exactly one of three
call shapes and never raises of its own: with no requested timeout it
calls execute with no timeout argument and no capability check; with a
requested timeout it forwards exactly that timeout as a keyword when
the backend accepts it and silently drops it otherwise.  The composite
delegates through the same guard. -/
theorem execute_timeout_guard_call_shapes (b : Backend) (cb : CompositeBackend)
    (cmd : String) (t : Int) :
    (aexecuteAdapter b cmd none = ⟨.withoutTimeout cmd, false⟩) ∧
    ((execute_accepts_timeout b.executeSig).accepts = true →
      aexecuteAdapter b cmd (some t) = ⟨.withTimeout cmd t, true⟩) ∧
    ((execute_accepts_timeout b.executeSig).accepts = false →
      aexecuteAdapter b cmd (some t) = ⟨.withoutTimeout cmd, true⟩) ∧
    (∀ topt, cb.execute cmd topt =
        (cb.default, executeWithTimeoutGuard cb.default.executeSig cmd topt) ∧
      cb.aexecute cmd topt = cb.execute cmd topt) := by
  refine ⟨rfl, ?_, ?_, fun topt => ⟨rfl, rfl⟩⟩
  · intro h
    simp [aexecuteAdapter, executeWithTimeoutGuard, h]
  · intro h
    simp [aexecuteAdapter, executeWithTimeoutGuard, h]

/-- C3 witness: the three shapes at concrete backends — a modern
backend receives exactly the requested timeout, a legacy backend is
called without one, and a call with no timeout skips the check. -/
theorem execute_timeout_guard_call_shapes_witness :
    ((execute_accepts_timeout modernBackend.executeSig).accepts = true ∧
      aexecuteAdapter modernBackend "ls" (some 42) = ⟨.withTimeout "ls" 42, true⟩) ∧
    ((execute_accepts_timeout legacyBackend.executeSig).accepts = false ∧
      aexecuteAdapter legacyBackend "ls" (some 30) = ⟨.withoutTimeout "ls", true⟩) ∧
    aexecuteAdapter modernBackend "echo hi" none = ⟨.withoutTimeout "echo hi", false⟩ :=
  ⟨⟨rfl, (execute_timeout_guard_call_shapes modernBackend exampleComposite "ls" 42).2.1 rfl⟩,
   ⟨rfl, (execute_timeout_guard_call_shapes legacyBackend exampleComposite "ls" 30).2.2.1 rfl⟩,
   (execute_timeout_guard_call_shapes modernBackend exampleComposite "echo hi" 0).1⟩

/-- An empty pick means the candidate list was empty. -/
theorem pickLongest_eq_none {l : List (List Char × Backend)} :
    pickLongest l = none ↔ l = [] := by
  cases l with
  | nil => simp [pickLongest]
  | cons r rs =>
      simp only [pickLongest]
      cases h : pickLongest rs with
      | none => simp
      | some b => by_cases hlen : b.1.length > r.1.length <;> simp [hlen]

/-- A picked route belongs to the candidates and has maximal prefix
length among them. -/
theorem pickLongest_spec {l : List (List Char × Backend)} {r : List Char × Backend}
    (h : pickLongest l = some r) :
    r ∈ l ∧ ∀ x ∈ l, x.1.length ≤ r.1.length := by
  induction l generalizing r with
  | nil => simp [pickLongest] at h
  | cons a rs ih =>
      rw [pickLongest] at h
      cases hrs : pickLongest rs with
      | none =>
          rw [hrs] at h
          injection h with h
          subst h
          have hempty : rs = [] := pickLongest_eq_none.mp hrs
          subst hempty
          refine ⟨List.mem_singleton.mpr rfl, ?_⟩
          intro x hx
          rw [List.mem_singleton.mp hx]
      | some b =>
          rw [hrs] at h
          have h' : (if b.1.length > a.1.length then some b else some a) = some r := h
          obtain ⟨hb_mem, hb_max⟩ := ih hrs
          by_cases hlen : b.1.length > a.1.length
          · rw [if_pos hlen] at h'
            injection h' with h'
            subst h'
            refine ⟨List.mem_cons_of_mem _ hb_mem, ?_⟩
            intro x hx
            rcases List.mem_cons.mp hx with hx | hx
            · subst hx
              exact Nat.le_of_lt hlen
            · exact hb_max x hx
          · rw [if_neg hlen] at h'
            injection h' with h'
            subst h'
            refine ⟨List.mem_cons_self _ _, ?_⟩
            intro x hx
            rcases List.mem_cons.mp hx with hx | hx
            · subst hx
              exact Nat.le_refl _
            · exact Nat.le_trans (hb_max x hx) (Nat.le_of_not_lt hlen)

/-- The routing decision: the default backend when no route matches,
otherwise a matching route of maximal prefix length. -/
theorem routeTarget_spec (cb : CompositeBackend) (n : List Char) :
    ((∀ r ∈ cb.routes, prefixMatches r.1 n = false) → cb.routeTarget n = cb.default) ∧
    (∀ r ∈ cb.routes, prefixMatches r.1 n = true →
      ∃ r' ∈ cb.routes, prefixMatches r'.1 n = true ∧ cb.routeTarget n = r'.2 ∧
        ∀ x ∈ cb.routes, prefixMatches x.1 n = true → x.1.length ≤ r'.1.length) := by
  constructor
  · intro hall
    have hnil : cb.routes.filter (fun r => prefixMatches r.1 n) = [] := by
      rw [List.filter_eq_nil_iff]
      intro r hr
      simp [hall r hr]
    rw [CompositeBackend.routeTarget, hnil]
    rfl
  · intro r hr hmatch
    have hmem : r ∈ cb.routes.filter (fun x => prefixMatches x.1 n) :=
      List.mem_filter.mpr ⟨hr, hmatch⟩
    cases hpl : pickLongest (cb.routes.filter fun x => prefixMatches x.1 n) with
    | none =>
        rw [pickLongest_eq_none] at hpl
        rw [hpl] at hmem
        simp at hmem
    | some r' =>
        obtain ⟨hmem', hmax⟩ := pickLongest_spec hpl
        have hr' := List.mem_filter.mp hmem'
        refine ⟨r', hr'.1, hr'.2, ?_, ?_⟩
        · rw [CompositeBackend.routeTarget, hpl]
        · intro x hx hmx
          exact hmax x (List.mem_filter.mpr ⟨hx, hmx⟩)

/-- C5: each filesystem call of the composite on a path that validates
to `n` is dispatched to the backend registered under the longest prefix
matching `n` (the default backend when no route matches), and execute
and aexecute always delegate to the default backend regardless of
routes. -/
theorem composite_routing_spec (cb : CompositeBackend) (s n : String)
    (h : validate_path s none = .ok n) :
    cb.backendFor s = .ok (cb.routeTarget n.data) ∧
    ((∀ r ∈ cb.routes, prefixMatches r.1 n.data = false) →
      cb.routeTarget n.data = cb.default) ∧
    (∀ r ∈ cb.routes, prefixMatches r.1 n.data = true →
      ∃ r' ∈ cb.routes, prefixMatches r'.1 n.data = true ∧
        cb.routeTarget n.data = r'.2 ∧
        ∀ x ∈ cb.routes, prefixMatches x.1 n.data = true →
          x.1.length ≤ r'.1.length) ∧
    (∀ cmd topt, (cb.execute cmd topt).1 = cb.default ∧
      (cb.aexecute cmd topt).1 = cb.default) := by
  rw [validate_path_none_eq] at h
  obtain ⟨m, hm, hmk⟩ := exceptMap_ok.mp h
  have hdata : n.data = m := by rw [← hmk]
  refine ⟨?_, (routeTarget_spec cb n.data).1, (routeTarget_spec cb n.data).2,
    fun cmd topt => ⟨rfl, rfl⟩⟩
  rw [CompositeBackend.backendFor, hdata, hm]
  rfl

/-- C5 witness: the routing example of the spec — a read of
`/memories/AGENTS.md` is served by the backend routed under
`/memories/`, a read of `/other/file.txt` by the default backend, and
execute delegates to the default backend. -/
theorem composite_routing_spec_witness :
    exampleComposite.backendFor "/memories/AGENTS.md" = .ok memoriesBackend ∧
    exampleComposite.backendFor "/other/file.txt" = .ok legacyBackend ∧
    (exampleComposite.execute "ls" none).1 = legacyBackend := by
  have h := composite_routing_spec exampleComposite "/memories/AGENTS.md"
    "/memories/AGENTS.md" rfl
  refine ⟨?_, rfl, rfl⟩
  rw [h.1]
  rfl
